import Mathlib

/-!
Shallow embedding of `delegate.h` (type-erased multicast delegate).

The header ships two revisions of one design; this file embeds the second
(refined) revision `Delegate<TRet(Args...)>` and, where the first revision
differs in observable behaviour (null checks on member-function `Add`), the
first revision's variant as a separately named definition.

Modelling choices, each traceable to the source:
* Machine addresses (`this`, `&other`, object pointers, member-function
  pointers) are modelled as `Nat`; pointer value `0` stands for `nullptr`.
* `typeid(...)` values are modelled by `TypeId`: `typeid(T)` of a wrapped
  callable type is `TypeId.valueTy tag`, `typeid(TRet (T::*)(Args...))` is
  `TypeId.memberTy tag`, the const variant is `TypeId.constMemberTy tag`, and
  `typeid(Delegate<TRet(Args...)>)` is `TypeId.delegateTy`.  Distinct C++
  types get distinct tags.
* The compile-time selection among the three `EqualsImpl` overloads
  (`_IsEqualityComparable` / `_IsMemcmpSafe` traits) is a function of the
  wrapped type alone; it is modelled by a per-type tier map `t : Nat → Tier`.
* A wrapped value of type `T` is modelled by its value (`val`, compared by
  `operator==` in tier 1) together with its raw `_storage` bytes (`bytes`,
  compared by `memcmp` in tier 2).  The invocation behaviour of a wrapper is
  an opaque payload `beh : B` interpreted by `interp : B → A → S → S × R`
  (argument pack `A`, ambient state `S` for side effects, result `R`).
* The stored entries (`std::vector<std::unique_ptr<_ICallable>> _data`) are a
  list of `ICallable B`; every smart pointer is non-null by construction, as
  in the source.
-/

/-- The three `EqualsImpl` overloads of `_CallableWrapperImpl<T>`:
tier 1 (`_IsEqualityComparable<T>`), tier 2 (`!eq ∧ _IsMemcmpSafe<T>`),
tier 3 (neither). -/
inductive Tier where
  | native
  | flat
  | identityOnly
deriving DecidableEq

/-- `std::type_info` identities returned by the `GetTypeInfo` overrides. -/
inductive TypeId where
  | valueTy (tag : Nat)
  | memberTy (tag : Nat)
  | constMemberTy (tag : Nat)
  | delegateTy
deriving DecidableEq

/-- The closed world of `ICallable<TRet(Args...)>` implementations in the
header: `_CallableWrapperImpl<T>`, `_MemberFuncWrapper<T>`,
`_ConstMemberFuncWrapper<T>`, and `Delegate<TRet(Args...)>` itself.
`addr` is the object's own address (`this`). -/
inductive ICallable (B : Type) where
  | callableWrapper (addr tag val : Nat) (bytes : List Nat) (beh : B)
  | memberFuncWrapper (addr tag objAddr funcId : Nat) (beh : B)
  | constMemberFuncWrapper (addr tag objAddr funcId : Nat) (beh : B)
  | delegate (addr : Nat) (entries : List (ICallable B))

variable {B A S R : Type}

/-- The address of the callable object itself (`this`). -/
def addrOf : ICallable B → Nat
  | .callableWrapper a _ _ _ _ => a
  | .memberFuncWrapper a _ _ _ _ => a
  | .constMemberFuncWrapper a _ _ _ _ => a
  | .delegate a _ => a

/-- The `GetTypeInfo` override of each concrete callable. -/
def ICallable.GetTypeInfo : ICallable B → TypeId
  | .callableWrapper _ tag _ _ _ => TypeId.valueTy tag
  | .memberFuncWrapper _ tag _ _ _ => TypeId.memberTy tag
  | .constMemberFuncWrapper _ tag _ _ _ => TypeId.constMemberTy tag
  | .delegate _ _ => TypeId.delegateTy

mutual

/-- The `Equals` virtual dispatch.  For `_CallableWrapperImpl<T>` the tier map
`t` selects among the three `EqualsImpl` overloads; member-function wrappers
compare the object pointer and member-function pointer; `Delegate::Equals`
compares identity, then `GetTypeInfo`, then size, then entries pairwise. -/
def ICallable.Equals (t : Nat → Tier) : ICallable B → ICallable B → Bool
  | .callableWrapper a tag v bs _, o =>
    match t tag with
    | Tier.native =>
      if addrOf o = a then true
      else if o.GetTypeInfo ≠ TypeId.valueTy tag then false
      else
        match o with
        | .callableWrapper _ _ v2 _ _ => decide (v = v2)
        | _ => false
    | Tier.flat =>
      if addrOf o = a then true
      else if o.GetTypeInfo ≠ TypeId.valueTy tag then false
      else
        match o with
        | .callableWrapper _ _ _ bs2 _ => decide (bs = bs2)
        | _ => false
    | Tier.identityOnly => decide (addrOf o = a)
  | .memberFuncWrapper a tag ob fn _, o =>
    if addrOf o = a then true
    else if o.GetTypeInfo ≠ TypeId.memberTy tag then false
    else
      match o with
      | .memberFuncWrapper _ _ ob2 fn2 _ => decide (ob = ob2) && decide (fn = fn2)
      | _ => false
  | .constMemberFuncWrapper a tag ob fn _, o =>
    if addrOf o = a then true
    else if o.GetTypeInfo ≠ TypeId.constMemberTy tag then false
    else
      match o with
      | .constMemberFuncWrapper _ _ ob2 fn2 _ => decide (ob = ob2) && decide (fn = fn2)
      | _ => false
  | .delegate a es, o =>
    if addrOf o = a then true
    else if o.GetTypeInfo ≠ TypeId.delegateTy then false
    else
      match o with
      | .delegate _ es2 => decide (es.length = es2.length) && equalsList t es es2
      | _ => false

/-- Pairwise `Equals` of two entry sequences (the indexed loop in
`Delegate::Equals`); `false` on a length mismatch. -/
def equalsList (t : Nat → Tier) : List (ICallable B) → List (ICallable B) → Bool
  | [], [] => true
  | c :: cs, d :: ds => ICallable.Equals t c d && equalsList t cs ds
  | _, _ => false

end

/-- The failure raised by `Delegate::Invoke` on an empty delegate
(`throw std::runtime_error("Delegate is empty")`). -/
inductive DelegateError where
  | emptyDelegate
deriving DecidableEq

mutual

/-- The `Invoke` virtual dispatch: wrappers forward to the wrapped callable
(total in the model, interpreted by `interp`); a stored `Delegate` runs its
own `Invoke` over its entries, which fails when they are empty. -/
def ICallable.Invoke (interp : B → A → S → S × R) :
    ICallable B → A → S → Except DelegateError (S × R)
  | .callableWrapper _ _ _ _ beh, a, s => .ok (interp beh a s)
  | .memberFuncWrapper _ _ _ _ beh, a, s => .ok (interp beh a s)
  | .constMemberFuncWrapper _ _ _ _ beh, a, s => .ok (interp beh a s)
  | .delegate _ es, a, s => invokeEntries interp es a s

/-- The body of `Delegate::Invoke`: throw on empty, invoke entries
`0 .. size-2` discarding their results (their side effects thread through the
state), and return the last entry's result. -/
def invokeEntries (interp : B → A → S → S × R) :
    List (ICallable B) → A → S → Except DelegateError (S × R)
  | [], _, _ => .error DelegateError.emptyDelegate
  | [c], a, s => ICallable.Invoke interp c a s
  | c :: c2 :: cs, a, s =>
    match ICallable.Invoke interp c a s with
    | .error e => .error e
    | .ok (s2, _) => invokeEntries interp (c2 :: cs) a s2

end

/-- The body of `Delegate::InvokeAll`: invoke every entry in order and collect
every result; an empty entry list yields the empty result vector. -/
def runAllEntries (interp : B → A → S → S × R) :
    List (ICallable B) → A → S → Except DelegateError (S × List R)
  | [], _, s => .ok (s, [])
  | c :: cs, a, s =>
    match ICallable.Invoke interp c a s with
    | .error e => .error e
    | .ok (s2, r) =>
      match runAllEntries interp cs a s2 with
      | .error e => .error e
      | .ok (s3, rs) => .ok (s3, r :: rs)

mutual

/-- The `Clone` virtual dispatch.  Each override allocates a new object
(`new ...`), so the clone gets a fresh address; the argument `n` is the next
free address and the result pairs the clone with the next counter value.
Wrapper clones copy the held value / the (object, member-function) pair;
`Delegate::Clone` copy-constructs, cloning every entry. -/
def ICallable.Clone : ICallable B → Nat → ICallable B × Nat
  | .callableWrapper _ tag v bs beh, n => (.callableWrapper n tag v bs beh, n + 1)
  | .memberFuncWrapper _ tag ob fn beh, n => (.memberFuncWrapper n tag ob fn beh, n + 1)
  | .constMemberFuncWrapper _ tag ob fn beh, n => (.constMemberFuncWrapper n tag ob fn beh, n + 1)
  | .delegate _ es, n =>
    let p := cloneEntries es (n + 1)
    (.delegate n p.1, p.2)

/-- Clone every entry in order (the loop of the `Delegate` copy
constructor), threading the address counter. -/
def cloneEntries : List (ICallable B) → Nat → List (ICallable B) × Nat
  | [], n => ([], n)
  | c :: cs, n =>
    let p := ICallable.Clone c n
    let q := cloneEntries cs p.2
    (p.1 :: q.1, q.2)

end

mutual

/-- All object addresses reachable from a callable: its own address and, for
a stored delegate, those of its entries. -/
def addrsC : ICallable B → List Nat
  | .callableWrapper a _ _ _ _ => [a]
  | .memberFuncWrapper a _ _ _ _ => [a]
  | .constMemberFuncWrapper a _ _ _ _ => [a]
  | .delegate a es => a :: addrsList es

/-- All object addresses reachable from an entry list. -/
def addrsList : List (ICallable B) → List Nat
  | [] => []
  | c :: cs => addrsC c ++ addrsList cs

end

mutual

/-- `true` when no tier-3 (identity-equality) value wrapper occurs anywhere in
the callable, so that `Equals` against a clone can succeed. -/
def cloneSafeC (t : Nat → Tier) : ICallable B → Bool
  | .callableWrapper _ tag _ _ _ => decide (t tag ≠ Tier.identityOnly)
  | .memberFuncWrapper _ _ _ _ _ => true
  | .constMemberFuncWrapper _ _ _ _ _ => true
  | .delegate _ es => cloneSafeList t es

/-- `cloneSafeC` over every entry of a list. -/
def cloneSafeList (t : Nat → Tier) : List (ICallable B) → Bool
  | [] => true
  | c :: cs => cloneSafeC t c && cloneSafeList t cs

end

/-- The delegate object: its own address (`this`) and its owned entry
sequence `_data`. -/
structure Delegate (B : Type) where
  addr : Nat
  entries : List (ICallable B)

/-- A delegate viewed through the `ICallable` interface it implements. -/
def Delegate.toICallable (d : Delegate B) : ICallable B :=
  ICallable.delegate d.addr d.entries

/-- `Delegate::Equals(const ICallable &other)`. -/
def Delegate.Equals (t : Nat → Tier) (d : Delegate B) (o : ICallable B) : Bool :=
  ICallable.Equals t d.toICallable o

/-- `operator==` between two delegates (calls `Equals`). -/
def Delegate.opEq (t : Nat → Tier) (d e : Delegate B) : Bool :=
  Delegate.Equals t d e.toICallable

/-- `operator bool` (second revision) / `!IsNull()` (first revision). -/
def Delegate.toBool (d : Delegate B) : Bool :=
  !d.entries.isEmpty

/-- `Clear()`: drop all owned entries. -/
def Delegate.Clear (d : Delegate B) : Delegate B :=
  ⟨d.addr, []⟩

/-- `_data.emplace_back(...)`: append one owned entry.  Every `Add` overload
funnels here after constructing its wrapper. -/
def Delegate.Add (d : Delegate B) (c : ICallable B) : Delegate B :=
  ⟨d.addr, d.entries ++ [c]⟩

/-- The model's tag for the function-pointer type `TRet (*)(Args...)` (one
fixed type per signature, equality-comparable, so tier 1). -/
def fnPtrTag : Nat := 0

/-- `Add(TRet (*func)(Args...))` (both revisions): null pointer is a silent
no-op, otherwise wrap the pointer value in `_CallableWrapperImpl`. -/
def Delegate.AddFuncPtr (d : Delegate B) (p : Nat) (beh : B) (fresh : Nat) : Delegate B :=
  if p = 0 then d else d.Add (.callableWrapper fresh fnPtrTag p [p] beh)

/-- `Add(T &obj, TRet (T::*func)(Args...))`, second revision: appends
unconditionally — there is no null check on `func`. -/
def Delegate.AddMember (d : Delegate B) (obj fn tag : Nat) (beh : B) (fresh : Nat) : Delegate B :=
  d.Add (.memberFuncWrapper fresh tag obj fn beh)

/-- `Add(TObject &obj, TRet (TObject::*func)(Args...))`, first revision:
guarded by `if (func)`, so a null member-function pointer is a no-op. -/
def Delegate.AddMemberRev1 (d : Delegate B) (obj fn tag : Nat) (beh : B) (fresh : Nat) : Delegate B :=
  if fn = 0 then d else d.AddMember obj fn tag beh fresh

/-- `Add(const T &obj, TRet (T::*func)(Args...) const)`, second revision: no
null check. -/
def Delegate.AddConstMember (d : Delegate B) (obj fn tag : Nat) (beh : B) (fresh : Nat) : Delegate B :=
  d.Add (.constMemberFuncWrapper fresh tag obj fn beh)

/-- The const-member `Add` of the first revision, guarded by `if (func)`. -/
def Delegate.AddConstMemberRev1 (d : Delegate B) (obj fn tag : Nat) (beh : B) (fresh : Nat) : Delegate B :=
  if fn = 0 then d else d.AddConstMember obj fn tag beh fresh

/-- The backward scan of `_Remove`: try to erase the match closest to the end
of the tail first; only when the tail holds no match is the head entry tested
(`rbegin()`→`rend()` iteration, erasing the first success).  `none` when no
entry matches. -/
def removeLastMatch (t : Nat → Tier) (w : ICallable B) :
    List (ICallable B) → Option (List (ICallable B))
  | [] => none
  | c :: cs =>
    match removeLastMatch t w cs with
    | some cs2 => some (c :: cs2)
    | none => if ICallable.Equals t c w then some cs else none

/-- `_Remove(const _ICallable &callable)` (second revision): scan from the
end toward the front, erase the first entry whose `Equals` against the
argument succeeds and return `true`; return `false` leaving `_data` untouched
when none matches. -/
def Delegate.RemoveImpl (t : Nat → Tier) (d : Delegate B) (w : ICallable B) :
    Bool × Delegate B :=
  match removeLastMatch t w d.entries with
  | some es => (true, ⟨d.addr, es⟩)
  | none => (false, d)

/-- `Remove(TRet (*func)(Args...))`: a null pointer returns `false` without
scanning; otherwise a throwaway `_CallableWrapperImpl` built from the pointer
(at a fresh address) is handed to `_Remove`. -/
def Delegate.RemoveFuncPtr (t : Nat → Tier) (d : Delegate B) (p : Nat) (beh : B)
    (fresh : Nat) : Bool × Delegate B :=
  if p = 0 then (false, d)
  else d.RemoveImpl t (.callableWrapper fresh fnPtrTag p [p] beh)

/-- `Remove(const T &callable)`: build a throwaway `_CallableWrapper<T>` from
the value (fresh address) and hand it to `_Remove`. -/
def Delegate.RemoveValue (t : Nat → Tier) (d : Delegate B) (tag v : Nat)
    (bs : List Nat) (beh : B) (fresh : Nat) : Bool × Delegate B :=
  d.RemoveImpl t (.callableWrapper fresh tag v bs beh)

/-- `Remove(T &obj, TRet (T::*func)(Args...))` (second revision, no null
check): throwaway `_MemberFuncWrapper` handed to `_Remove`. -/
def Delegate.RemoveMember (t : Nat → Tier) (d : Delegate B) (obj fn tag : Nat)
    (beh : B) (fresh : Nat) : Bool × Delegate B :=
  d.RemoveImpl t (.memberFuncWrapper fresh tag obj fn beh)

/-- `Delegate::Invoke` on the delegate's own entries. -/
def Delegate.Invoke (interp : B → A → S → S × R) (d : Delegate B) (a : A) (s : S) :
    Except DelegateError (S × R) :=
  invokeEntries interp d.entries a s

/-- `Delegate::InvokeAll` on the delegate's own entries. -/
def Delegate.InvokeAll (interp : B → A → S → S × R) (d : Delegate B) (a : A) (s : S) :
    Except DelegateError (S × List R) :=
  runAllEntries interp d.entries a s

/-- The copy constructor: a new delegate object (fresh address `newAddr`)
whose `_data` clones every entry of the source in order; `n` is the address
counter for the clones. -/
def Delegate.copyCtor (d : Delegate B) (newAddr n : Nat) : Delegate B × Nat :=
  let p := cloneEntries d.entries n
  (⟨newAddr, p.1⟩, p.2)

/-- The move constructor: the new object (fresh address) takes over `_data`;
moving a `std::vector` out leaves the source vector empty.  The result pairs
the new delegate with the moved-from source. -/
def Delegate.moveCtor (d : Delegate B) (newAddr : Nat) : Delegate B × Delegate B :=
  (⟨newAddr, d.entries⟩, ⟨d.addr, []⟩)

/-- Copy assignment: self-assignment (`this == &other`) is a no-op; otherwise
the destination clears its entries and clones every source entry. -/
def Delegate.copyAssign (dst src : Delegate B) (n : Nat) : Delegate B × Nat :=
  if dst.addr = src.addr then (dst, n)
  else
    let p := cloneEntries src.entries n
    (⟨dst.addr, p.1⟩, p.2)

/-- Move assignment: self-assignment is a no-op; otherwise the destination
takes over the source's entries and the source is left empty. -/
def Delegate.moveAssign (dst src : Delegate B) : Delegate B × Delegate B :=
  if dst.addr = src.addr then (dst, src)
  else (⟨dst.addr, src.entries⟩, ⟨src.addr, []⟩)

/-! ## Helper lemmas -/

theorem runAllEntries_length (interp : B → A → S → S × R) :
    ∀ (es : List (ICallable B)) (a : A) (s s2 : S) (rs : List R),
      runAllEntries interp es a s = .ok (s2, rs) → rs.length = es.length := by
  intro es
  induction es with
  | nil =>
    intro a s s2 rs h
    simp only [runAllEntries, Except.ok.injEq, Prod.mk.injEq] at h
    simp [← h.2]
  | cons c cs ih =>
    intro a s s2 rs h
    simp only [runAllEntries] at h
    cases hInv : ICallable.Invoke interp c a s with
    | error e => rw [hInv] at h; cases h
    | ok p =>
      obtain ⟨ps, pr⟩ := p
      rw [hInv] at h
      simp only at h
      cases hRun : runAllEntries interp cs a ps with
      | error e => rw [hRun] at h; cases h
      | ok q =>
        obtain ⟨qs, qr⟩ := q
        rw [hRun] at h
        simp only [Except.ok.injEq, Prod.mk.injEq] at h
        have := ih a ps qs qr hRun
        simp [← h.2, this]

theorem invokeEntries_of_runAll (interp : B → A → S → S × R) :
    ∀ (es : List (ICallable B)) (a : A) (s s2 : S) (rs : List R),
      es ≠ [] → runAllEntries interp es a s = .ok (s2, rs) →
      ∃ r, rs.getLast? = some r ∧ invokeEntries interp es a s = .ok (s2, r) := by
  intro es
  induction es with
  | nil => intro a s s2 rs hne; exact absurd rfl hne
  | cons c cs ih =>
    intro a s s2 rs _ h
    simp only [runAllEntries] at h
    cases hInv : ICallable.Invoke interp c a s with
    | error e => rw [hInv] at h; cases h
    | ok p =>
      obtain ⟨ps, pr⟩ := p
      rw [hInv] at h
      simp only at h
      cases hRun : runAllEntries interp cs a ps with
      | error e => rw [hRun] at h; cases h
      | ok q =>
        obtain ⟨qs, qr⟩ := q
        rw [hRun] at h
        simp only [Except.ok.injEq, Prod.mk.injEq] at h
        cases cs with
        | nil =>
          simp only [runAllEntries, Except.ok.injEq, Prod.mk.injEq] at hRun
          refine ⟨pr, ?_, ?_⟩
          · rw [← h.2, ← hRun.2]; rfl
          · rw [← h.1, ← hRun.1]
            simpa [invokeEntries] using hInv
        | cons c2 cs2 =>
          obtain ⟨r, hLast, hInvoke⟩ := ih a ps qs qr (by simp) hRun
          refine ⟨r, ?_, ?_⟩
          · rw [← h.2]
            have hqr : qr ≠ [] := by
              intro hq; rw [hq] at hLast; simp at hLast
            cases qr with
            | nil => exact absurd rfl hqr
            | cons q0 qtl => simpa using hLast
          · rw [← h.1]
            simp only [invokeEntries, hInv]
            exact hInvoke

theorem runAllEntries_append (interp : B → A → S → S × R) :
    ∀ (es1 es2 : List (ICallable B)) (a : A) (s : S),
      runAllEntries interp (es1 ++ es2) a s =
        match runAllEntries interp es1 a s with
        | .error e => .error e
        | .ok (s2, rs1) =>
          match runAllEntries interp es2 a s2 with
          | .error e => .error e
          | .ok (s3, rs2) => .ok (s3, rs1 ++ rs2) := by
  intro es1
  induction es1 with
  | nil =>
    intro es2 a s
    simp only [List.nil_append, runAllEntries]
    cases h2 : runAllEntries interp es2 a s with
    | error e => simp
    | ok q => obtain ⟨qs, qr⟩ := q; simp
  | cons c cs ih =>
    intro es2 a s
    simp only [List.cons_append, runAllEntries]
    cases hInv : ICallable.Invoke interp c a s with
    | error e => simp
    | ok p =>
      obtain ⟨ps, pr⟩ := p
      simp only [List.append_eq]
      rw [ih es2 a ps]
      cases h1 : runAllEntries interp cs a ps with
      | error e => simp
      | ok q =>
        obtain ⟨qs, qr⟩ := q
        simp only
        cases h2 : runAllEntries interp es2 a qs with
        | error e => simp
        | ok w => obtain ⟨ws, wr⟩ := w; simp

theorem removeLastMatch_none_iff (t : Nat → Tier) (w : ICallable B) :
    ∀ l : List (ICallable B),
      removeLastMatch t w l = none ↔ ∀ c ∈ l, ICallable.Equals t c w = false := by
  intro l
  induction l with
  | nil => simp [removeLastMatch]
  | cons c cs ih =>
    simp only [removeLastMatch, List.forall_mem_cons]
    cases h : removeLastMatch t w cs with
    | some cs2 =>
      simp only
      constructor
      · intro hcon; cases hcon
      · rintro ⟨_, h2⟩
        have := ih.mpr h2
        rw [this] at h
        cases h
    | none =>
      simp only
      cases hc : ICallable.Equals t c w with
      | true => simp [hc]
      | false => simp [hc]; exact ih.mp h

theorem removeLastMatch_some_spec (t : Nat → Tier) (w : ICallable B) :
    ∀ (l l2 : List (ICallable B)), removeLastMatch t w l = some l2 →
      ∃ l1 x l3, l = l1 ++ x :: l3 ∧ l2 = l1 ++ l3 ∧
        ICallable.Equals t x w = true ∧ ∀ c ∈ l3, ICallable.Equals t c w = false := by
  intro l
  induction l with
  | nil => intro l2 h; simp [removeLastMatch] at h
  | cons c cs ih =>
    intro l2 h
    simp only [removeLastMatch] at h
    cases htail : removeLastMatch t w cs with
    | some cs2 =>
      rw [htail] at h
      simp only [Option.some.injEq] at h
      obtain ⟨l1, x, l3, he, he2, hx, hall⟩ := ih cs2 htail
      exact ⟨c :: l1, x, l3, by simp [he], by simp [← h, he2], hx, hall⟩
    | none =>
      rw [htail] at h
      simp only at h
      cases hc : ICallable.Equals t c w with
      | false => rw [hc] at h; simp at h
      | true =>
        rw [hc] at h
        simp only [if_true, Option.some.injEq] at h
        exact ⟨[], c, cs, by simp, by simp [← h], hc,
          (removeLastMatch_none_iff t w cs).mp htail⟩

theorem removeLastMatch_append_last (t : Nat → Tier) (w c : ICallable B)
    (hc : ICallable.Equals t c w = true) :
    ∀ es : List (ICallable B), removeLastMatch t w (es ++ [c]) = some es := by
  intro es
  induction es with
  | nil => simp [removeLastMatch, hc]
  | cons e es2 ih => simp [removeLastMatch, ih]

theorem ICallable.Equals_of_addr_eq (t : Nat → Tier) (c o : ICallable B)
    (h : addrOf o = addrOf c) : ICallable.Equals t c o = true := by
  cases c with
  | callableWrapper a tag v bs beh =>
    cases ht : t tag <;> simp_all [ICallable.Equals, addrOf]
  | memberFuncWrapper a tag ob fn beh => simp_all [ICallable.Equals, addrOf]
  | constMemberFuncWrapper a tag ob fn beh => simp_all [ICallable.Equals, addrOf]
  | delegate a es => simp_all [ICallable.Equals, addrOf]

theorem ICallable.Equals_refl (t : Nat → Tier) (c : ICallable B) :
    ICallable.Equals t c c = true :=
  ICallable.Equals_of_addr_eq t c c rfl

theorem equalsList_refl (t : Nat → Tier) :
    ∀ es : List (ICallable B), equalsList t es es = true := by
  intro es
  induction es with
  | nil => simp [equalsList]
  | cons c cs ih => simp [equalsList, ICallable.Equals_refl, ih]

theorem ICallable.Equals_of_ti_ne (t : Nat → Tier) (c o : ICallable B)
    (ha : addrOf o ≠ addrOf c)
    (hti : o.GetTypeInfo ≠ c.GetTypeInfo) : ICallable.Equals t c o = false := by
  cases c with
  | callableWrapper a tag v bs beh =>
    cases ht : t tag <;> simp_all [ICallable.Equals, addrOf, ICallable.GetTypeInfo]
  | memberFuncWrapper a tag ob fn beh =>
    simp_all [ICallable.Equals, addrOf, ICallable.GetTypeInfo]
  | constMemberFuncWrapper a tag ob fn beh =>
    simp_all [ICallable.Equals, addrOf, ICallable.GetTypeInfo]
  | delegate a es =>
    simp_all [ICallable.Equals, addrOf, ICallable.GetTypeInfo]

mutual

theorem ICallable.Equals_symm (t : Nat → Tier) : (c o : ICallable B) →
    ICallable.Equals t c o = ICallable.Equals t o c
  | c, o => by
    by_cases ha : addrOf o = addrOf c
    · rw [ICallable.Equals_of_addr_eq t c o ha, ICallable.Equals_of_addr_eq t o c ha.symm]
    · by_cases hti : o.GetTypeInfo = c.GetTypeInfo
      · cases c with
        | callableWrapper a tag v bs beh =>
          cases o with
          | callableWrapper a2 tag2 v2 bs2 beh2 =>
            simp only [ICallable.GetTypeInfo, TypeId.valueTy.injEq] at hti
            subst hti
            simp only [addrOf] at ha
            cases ht : t tag2 <;>
              simp_all [ICallable.Equals, addrOf, ICallable.GetTypeInfo, eq_comm]
          | memberFuncWrapper a2 tag2 ob2 fn2 beh2 => simp [ICallable.GetTypeInfo] at hti
          | constMemberFuncWrapper a2 tag2 ob2 fn2 beh2 => simp [ICallable.GetTypeInfo] at hti
          | delegate a2 es2 => simp [ICallable.GetTypeInfo] at hti
        | memberFuncWrapper a tag ob fn beh =>
          cases o with
          | callableWrapper a2 tag2 v2 bs2 beh2 => simp [ICallable.GetTypeInfo] at hti
          | memberFuncWrapper a2 tag2 ob2 fn2 beh2 =>
            simp only [ICallable.GetTypeInfo, TypeId.memberTy.injEq] at hti
            subst hti
            simp only [addrOf] at ha
            simp_all [ICallable.Equals, addrOf, ICallable.GetTypeInfo, eq_comm]
          | constMemberFuncWrapper a2 tag2 ob2 fn2 beh2 => simp [ICallable.GetTypeInfo] at hti
          | delegate a2 es2 => simp [ICallable.GetTypeInfo] at hti
        | constMemberFuncWrapper a tag ob fn beh =>
          cases o with
          | callableWrapper a2 tag2 v2 bs2 beh2 => simp [ICallable.GetTypeInfo] at hti
          | memberFuncWrapper a2 tag2 ob2 fn2 beh2 => simp [ICallable.GetTypeInfo] at hti
          | constMemberFuncWrapper a2 tag2 ob2 fn2 beh2 =>
            simp only [ICallable.GetTypeInfo, TypeId.constMemberTy.injEq] at hti
            subst hti
            simp only [addrOf] at ha
            simp_all [ICallable.Equals, addrOf, ICallable.GetTypeInfo, eq_comm]
          | delegate a2 es2 => simp [ICallable.GetTypeInfo] at hti
        | delegate a es =>
          cases o with
          | callableWrapper a2 tag2 v2 bs2 beh2 => simp [ICallable.GetTypeInfo] at hti
          | memberFuncWrapper a2 tag2 ob2 fn2 beh2 => simp [ICallable.GetTypeInfo] at hti
          | constMemberFuncWrapper a2 tag2 ob2 fn2 beh2 => simp [ICallable.GetTypeInfo] at hti
          | delegate a2 es2 =>
            simp only [addrOf] at ha
            have hl := equalsList_symm t es es2
            simp_all [ICallable.Equals, addrOf, ICallable.GetTypeInfo, eq_comm]
      · rw [ICallable.Equals_of_ti_ne t c o ha hti,
          ICallable.Equals_of_ti_ne t o c (fun hh => ha hh.symm) (fun hh => hti hh.symm)]

theorem equalsList_symm (t : Nat → Tier) : (l1 l2 : List (ICallable B)) →
    equalsList t l1 l2 = equalsList t l2 l1
  | [], [] => rfl
  | [], _ :: _ => by simp [equalsList]
  | _ :: _, [] => by simp [equalsList]
  | c :: cs, e :: es => by
    simp [equalsList, ICallable.Equals_symm t c e, equalsList_symm t cs es]

end

theorem cloneEntries_length :
    ∀ (es : List (ICallable B)) (n : Nat), (cloneEntries es n).1.length = es.length := by
  intro es
  induction es with
  | nil => intro n; rfl
  | cons c cs ih => intro n; simp [cloneEntries, ih]

theorem invokeEntries_cons_of_ne (interp : B → A → S → S × R) (c : ICallable B)
    (cs : List (ICallable B)) (h : cs ≠ []) (a : A) (s : S) :
    invokeEntries interp (c :: cs) a s =
      match ICallable.Invoke interp c a s with
      | .error e => .error e
      | .ok (s2, _) => invokeEntries interp cs a s2 := by
  cases cs with
  | nil => exact absurd rfl h
  | cons c2 cs2 => rfl

mutual

theorem ICallable.Clone_counter_le : (c : ICallable B) → (n : Nat) → n ≤ (ICallable.Clone c n).2
  | .callableWrapper _ _ _ _ _, n => by simp [ICallable.Clone]
  | .memberFuncWrapper _ _ _ _ _, n => by simp [ICallable.Clone]
  | .constMemberFuncWrapper _ _ _ _ _, n => by simp [ICallable.Clone]
  | .delegate _ es, n => by
    simp only [ICallable.Clone]
    have := cloneEntries_counter_le es (n + 1)
    omega

theorem cloneEntries_counter_le : (es : List (ICallable B)) → (n : Nat) → n ≤ (cloneEntries es n).2
  | [], n => Nat.le_refl n
  | c :: cs, n => by
    simp only [cloneEntries]
    have h1 := ICallable.Clone_counter_le c n
    have h2 := cloneEntries_counter_le cs (ICallable.Clone c n).2
    omega

end

mutual

theorem ICallable.Clone_addrs_ge : (c : ICallable B) → (n : Nat) →
    ∀ b ∈ addrsC (ICallable.Clone c n).1, n ≤ b
  | .callableWrapper _ _ _ _ _, n => by simp [ICallable.Clone, addrsC]
  | .memberFuncWrapper _ _ _ _ _, n => by simp [ICallable.Clone, addrsC]
  | .constMemberFuncWrapper _ _ _ _ _, n => by simp [ICallable.Clone, addrsC]
  | .delegate _ es, n => by
    simp only [ICallable.Clone, addrsC, List.mem_cons]
    rintro b (rfl | hb)
    · exact Nat.le_refl b
    · have := cloneEntries_addrs_ge es (n + 1) b hb
      omega

theorem cloneEntries_addrs_ge : (es : List (ICallable B)) → (n : Nat) →
    ∀ b ∈ addrsList (cloneEntries es n).1, n ≤ b
  | [], n => by simp [cloneEntries, addrsList]
  | c :: cs, n => by
    simp only [cloneEntries, addrsList, List.mem_append]
    rintro b (hb | hb)
    · exact ICallable.Clone_addrs_ge c n b hb
    · have h1 := ICallable.Clone_counter_le c n
      have h2 := cloneEntries_addrs_ge cs (ICallable.Clone c n).2 b hb
      omega

end

mutual

theorem ICallable.Clone_invoke (interp : B → A → S → S × R) :
    (c : ICallable B) → (n : Nat) → (a : A) → (s : S) →
      ICallable.Invoke interp (ICallable.Clone c n).1 a s = ICallable.Invoke interp c a s
  | .callableWrapper _ _ _ _ _, _, _, _ => rfl
  | .memberFuncWrapper _ _ _ _ _, _, _, _ => rfl
  | .constMemberFuncWrapper _ _ _ _ _, _, _, _ => rfl
  | .delegate _ es, n, a, s => by
    simp only [ICallable.Clone, ICallable.Invoke]
    exact cloneEntries_invoke interp es (n + 1) a s

theorem cloneEntries_invoke (interp : B → A → S → S × R) :
    (es : List (ICallable B)) → (n : Nat) → (a : A) → (s : S) →
      invokeEntries interp (cloneEntries es n).1 a s = invokeEntries interp es a s
  | [], _, _, _ => rfl
  | [c], n, a, s => by
    simp only [cloneEntries, invokeEntries]
    exact ICallable.Clone_invoke interp c n a s
  | c :: c2 :: cs, n, a, s => by
    simp only [cloneEntries]
    rw [invokeEntries_cons_of_ne interp _ _ (by simp)]
    rw [invokeEntries_cons_of_ne interp _ _ (by simp)]
    rw [ICallable.Clone_invoke interp c n a s]
    cases hInv : ICallable.Invoke interp c a s with
    | error e => rfl
    | ok p =>
      obtain ⟨s2, r⟩ := p
      simp only
      exact cloneEntries_invoke interp (c2 :: cs) (ICallable.Clone c n).2 a s2

end

mutual

theorem ICallable.Clone_equals (t : Nat → Tier) :
    (c : ICallable B) → (n : Nat) → cloneSafeC t c = true →
      ICallable.Equals t c (ICallable.Clone c n).1 = true
  | .callableWrapper a tag v bs beh, n, hs => by
    simp only [cloneSafeC, decide_eq_true_eq] at hs
    cases ht : t tag with
    | native => simp [ICallable.Clone, ICallable.Equals, addrOf, ICallable.GetTypeInfo, ht]
    | flat => simp [ICallable.Clone, ICallable.Equals, addrOf, ICallable.GetTypeInfo, ht]
    | identityOnly => exact absurd ht hs
  | .memberFuncWrapper a tag ob fn beh, n, _ => by
    simp [ICallable.Clone, ICallable.Equals, addrOf, ICallable.GetTypeInfo]
  | .constMemberFuncWrapper a tag ob fn beh, n, _ => by
    simp [ICallable.Clone, ICallable.Equals, addrOf, ICallable.GetTypeInfo]
  | .delegate a es, n, hs => by
    simp only [cloneSafeC] at hs
    simp only [ICallable.Clone, ICallable.Equals, addrOf, ICallable.GetTypeInfo]
    have hlen := cloneEntries_length (B := B) es (n + 1)
    have heq := cloneEntries_equals t es (n + 1) hs
    simp [hlen, heq]

theorem cloneEntries_equals (t : Nat → Tier) :
    (es : List (ICallable B)) → (n : Nat) → cloneSafeList t es = true →
      equalsList t es (cloneEntries es n).1 = true
  | [], _, _ => rfl
  | c :: cs, n, hs => by
    simp only [cloneSafeList, Bool.and_eq_true] at hs
    simp only [cloneEntries, equalsList, Bool.and_eq_true]
    exact ⟨ICallable.Clone_equals t c n hs.1,
      cloneEntries_equals t cs (ICallable.Clone c n).2 hs.2⟩

end

/-! ## Claim theorems -/

/-- C1: For every non-empty delegate, `Invoke` performs exactly the in-order
sequential run of its entry list (`runAllEntries`, which invokes each stored
entry exactly once in insertion order, threading side effects and producing
one result per entry), and returns the result of the final entry only,
discarding the results of all earlier entries. -/
theorem C1_invoke_in_order_returns_last (interp : B → A → S → S × R)
    (d : Delegate B) (a : A) (s : S) (s2 : S) (rs : List R)
    (hne : d.entries ≠ [])
    (hrun : Delegate.InvokeAll interp d a s = .ok (s2, rs)) :
    rs.length = d.entries.length ∧
    ∃ r, rs.getLast? = some r ∧ Delegate.Invoke interp d a s = .ok (s2, r) :=
  ⟨runAllEntries_length interp d.entries a s s2 rs hrun,
   invokeEntries_of_runAll interp d.entries a s s2 rs hne hrun⟩

/-- C1 witness: three entries that log their identity into the state; the
single-result `Invoke` runs them in registration order (final log `[1,2,3]`)
and returns the last entry's result `3`. -/
theorem C1_witness :
    Delegate.Invoke (fun (k : Nat) (_ : Unit) (s : List Nat) => (s ++ [k], k))
      ⟨0, [.callableWrapper 10 1 1 [] 1, .callableWrapper 20 1 2 [] 2,
           .callableWrapper 30 1 3 [] 3]⟩ () [] = .ok ([1, 2, 3], 3) := by
  obtain ⟨hlen, r, hr, hi⟩ := C1_invoke_in_order_returns_last
    (fun (k : Nat) (_ : Unit) (s : List Nat) => (s ++ [k], k))
    ⟨0, [.callableWrapper 10 1 1 [] 1, .callableWrapper 20 1 2 [] 2,
         .callableWrapper 30 1 3 [] 3]⟩ () [] [1, 2, 3] [1, 2, 3]
    (by simp) (by rfl)
  simp only [List.getLast?, Option.some.injEq] at hr
  rw [← hr] at hi
  exact hi

/-- C2: `Invoke` on an empty delegate always fails with the empty-delegate
error; `InvokeAll` on an empty delegate returns the empty result sequence
without failing; a successful `InvokeAll` yields exactly one result per
entry (length = entry count); and results are produced in entry order —
splitting the entry sequence splits the result sequence accordingly.  All
other modelled operations are total functions, so the empty-delegate failure
of `Invoke` is the only failure caused purely by container state. -/
theorem C2_empty_and_invokeAll (interp : B → A → S → S × R)
    (d : Delegate B) (a : A) (s : S) :
    (d.entries = [] → Delegate.Invoke interp d a s = .error DelegateError.emptyDelegate) ∧
    (d.entries = [] → Delegate.InvokeAll interp d a s = .ok (s, [])) ∧
    (∀ s2 rs, Delegate.InvokeAll interp d a s = .ok (s2, rs) →
      rs.length = d.entries.length) ∧
    (∀ es1 es2, d.entries = es1 ++ es2 →
      Delegate.InvokeAll interp d a s =
        match runAllEntries interp es1 a s with
        | .error e => .error e
        | .ok (s2, rs1) =>
          match runAllEntries interp es2 a s2 with
          | .error e => .error e
          | .ok (s3, rs2) => .ok (s3, rs1 ++ rs2)) := by
  refine ⟨?_, ?_, ?_, ?_⟩
  · intro h; simp [Delegate.Invoke, h, invokeEntries]
  · intro h; simp [Delegate.InvokeAll, h, runAllEntries]
  · intro s2 rs h; exact runAllEntries_length interp d.entries a s s2 rs h
  · intro es1 es2 h
    simp only [Delegate.InvokeAll, h]
    exact runAllEntries_append interp es1 es2 a s

/-- C2 witness: on the empty delegate, `Invoke` fails with the
empty-delegate error while `InvokeAll` succeeds with the empty result list,
and the entry/result counts agree. -/
theorem C2_witness :
    Delegate.Invoke (fun (k : Nat) (_ : Unit) (s : Nat) => (s + k, k))
      (⟨0, []⟩ : Delegate Nat) () 0 = .error DelegateError.emptyDelegate ∧
    Delegate.InvokeAll (fun (k : Nat) (_ : Unit) (s : Nat) => (s + k, k))
      (⟨0, []⟩ : Delegate Nat) () 0 = .ok (0, []) ∧
    ([] : List Nat).length = ([] : List (ICallable Nat)).length := by
  have h := C2_empty_and_invokeAll (fun (k : Nat) (_ : Unit) (s : Nat) => (s + k, k))
    (⟨0, []⟩ : Delegate Nat) () 0
  exact ⟨h.1 rfl, h.2.1 rfl, h.2.2.1 0 [] (h.2.1 rfl)⟩

/-- C3: `_Remove` erases exactly the most-recently-added entry whose `Equals`
against the throwaway wrapper succeeds (the entry list splits as
`l1 ++ x :: l3` with the matching `x` removed and no match anywhere in the
later part `l3`); it removes at most one entry per call, returns the
delegate unchanged when no entry matches, and — backward-scan consequence —
removing after the same callable was appended twice erases the most recently
appended copy. -/
theorem C3_remove_most_recent_match (t : Nat → Tier) (d : Delegate B) (w : ICallable B) :
    ((Delegate.RemoveImpl t d w).1 = false ↔
      ∀ c ∈ d.entries, ICallable.Equals t c w = false) ∧
    ((Delegate.RemoveImpl t d w).1 = false → Delegate.RemoveImpl t d w = (false, d)) ∧
    ((Delegate.RemoveImpl t d w).1 = true →
      ∃ l1 x l3, d.entries = l1 ++ x :: l3 ∧
        (Delegate.RemoveImpl t d w).2 = ⟨d.addr, l1 ++ l3⟩ ∧
        ICallable.Equals t x w = true ∧
        ∀ c ∈ l3, ICallable.Equals t c w = false) ∧
    (∀ (es : List (ICallable B)) (c : ICallable B) (ad : Nat),
      ICallable.Equals t c w = true →
      Delegate.RemoveImpl t ⟨ad, es ++ [c]⟩ w = (true, ⟨ad, es⟩)) := by
  refine ⟨?_, ?_, ?_, ?_⟩
  · rw [← removeLastMatch_none_iff t w d.entries]
    unfold Delegate.RemoveImpl
    cases h : removeLastMatch t w d.entries <;> simp
  · intro h
    unfold Delegate.RemoveImpl at *
    cases hm : removeLastMatch t w d.entries with
    | none => rfl
    | some es => rw [hm] at h; simp at h
  · intro h
    unfold Delegate.RemoveImpl at *
    cases hm : removeLastMatch t w d.entries with
    | none => rw [hm] at h; simp at h
    | some es =>
      obtain ⟨l1, x, l3, he, he2, hx, hall⟩ := removeLastMatch_some_spec t w d.entries es hm
      exact ⟨l1, x, l3, he, by simp [← he2], hx, hall⟩
  · intro es c ad hc
    simp [Delegate.RemoveImpl, removeLastMatch_append_last t w c hc es]

/-- C3 witness: the same tier-1 value (`val = 7`, type tag 1) registered
twice (addresses 3 and 4); one `Remove` with a fresh throwaway wrapper
erases exactly the most recently added copy, leaving the first one. -/
theorem C3_witness :
    Delegate.RemoveImpl (fun _ => Tier.native)
      (⟨0, [ICallable.callableWrapper 3 1 7 [] (0 : Nat)] ++
           [ICallable.callableWrapper 4 1 7 [] (0 : Nat)]⟩ : Delegate Nat)
      (.callableWrapper 9 1 7 [] 0)
      = (true, ⟨0, [ICallable.callableWrapper 3 1 7 [] (0 : Nat)]⟩) := by
  exact (C3_remove_most_recent_match (fun _ => Tier.native)
    (⟨0, [ICallable.callableWrapper 3 1 7 [] (0 : Nat)] ++
         [ICallable.callableWrapper 4 1 7 [] (0 : Nat)]⟩ : Delegate Nat)
    (.callableWrapper 9 1 7 [] 0)).2.2.2
    [ICallable.callableWrapper 3 1 7 [] (0 : Nat)]
    (ICallable.callableWrapper 4 1 7 [] (0 : Nat)) 0 (by decide)

/-- C4: equality of two distinct stored value wrappers of the same concrete
type follows the per-type three-tier policy: a native-equality type compares
the two held values; a flat (memcmp-safe) type compares the raw storage
bytes; an identity-only type compares object addresses, so two independently
constructed wrappers holding equivalent values are never equal. -/
theorem C4_three_tier_equality (t : Nat → Tier) (a a2 tag v v2 : Nat)
    (bs bs2 : List Nat) (beh beh2 : B) :
    (t tag = Tier.native → a2 ≠ a →
      ICallable.Equals t (.callableWrapper a tag v bs beh)
        (.callableWrapper a2 tag v2 bs2 beh2) = decide (v = v2)) ∧
    (t tag = Tier.flat → a2 ≠ a →
      ICallable.Equals t (.callableWrapper a tag v bs beh)
        (.callableWrapper a2 tag v2 bs2 beh2) = decide (bs = bs2)) ∧
    (t tag = Tier.identityOnly →
      ICallable.Equals t (.callableWrapper a tag v bs beh)
        (.callableWrapper a2 tag v2 bs2 beh2) = decide (a2 = a)) := by
  refine ⟨?_, ?_, ?_⟩
  · intro ht ha
    simp [ICallable.Equals, ht, addrOf, ICallable.GetTypeInfo, ha]
  · intro ht ha
    simp [ICallable.Equals, ht, addrOf, ICallable.GetTypeInfo, ha]
  · intro ht
    simp [ICallable.Equals, ht, addrOf]

/-- C4 witness: two tier-1 wrappers at distinct addresses holding the same
value compare equal by the native-equality tier. -/
theorem C4_witness :
    ICallable.Equals (fun _ => Tier.native)
      (ICallable.callableWrapper 1 5 7 [] (0 : Nat))
      (ICallable.callableWrapper 2 5 7 [] (0 : Nat)) = true := by
  have h := (C4_three_tier_equality (fun _ => Tier.native) 1 2 5 7 7 [] []
    (0 : Nat) (0 : Nat)).1 rfl (by decide)
  simpa using h

/-- C5: `operator==` between two delegates is true iff their type tags match
(both sides are delegates of the same signature, so the `GetTypeInfo` check
always passes), their entry counts match, and entries are pairwise equal by
position; it is reflexive and symmetric, and order-sensitive: delegates
holding `[A, B]` and `[B, A]` are unequal even though `A` and `B` are each
equal to their counterpart.  The characterization assumes the memory-model
soundness condition that two delegate objects at the same address are the
same object. -/
theorem C5_delegate_equality (t : Nat → Tier) :
    (∀ d e : Delegate B, (d.addr = e.addr → d = e) →
      (Delegate.opEq t d e = true ↔
        d.entries.length = e.entries.length ∧
        equalsList t d.entries e.entries = true)) ∧
    (∀ d : Delegate B, Delegate.opEq t d d = true) ∧
    (∀ d e : Delegate B, Delegate.opEq t d e = Delegate.opEq t e d) ∧
    (Delegate.opEq (fun _ => Tier.native)
      (⟨0, [ICallable.callableWrapper 10 3 1 [] (0 : Nat),
            ICallable.callableWrapper 20 3 2 [] (0 : Nat)]⟩ : Delegate Nat)
      ⟨1, [ICallable.callableWrapper 21 3 2 [] (0 : Nat),
           ICallable.callableWrapper 11 3 1 [] (0 : Nat)]⟩ = false ∧
     ICallable.Equals (fun _ => Tier.native)
       (ICallable.callableWrapper 10 3 1 [] (0 : Nat))
       (ICallable.callableWrapper 11 3 1 [] (0 : Nat)) = true ∧
     ICallable.Equals (fun _ => Tier.native)
       (ICallable.callableWrapper 20 3 2 [] (0 : Nat))
       (ICallable.callableWrapper 21 3 2 [] (0 : Nat)) = true) := by
  refine ⟨?_, ?_, ?_, by decide, by decide, by decide⟩
  · intro d e hinj
    show ICallable.Equals t (.delegate d.addr d.entries) (.delegate e.addr e.entries) = true ↔ _
    by_cases ha : e.addr = d.addr
    · have hde : d = e := hinj ha.symm
      subst hde
      simp [ICallable.Equals, addrOf, equalsList_refl]
    · simp [ICallable.Equals, addrOf, ICallable.GetTypeInfo, ha]
  · intro d
    exact ICallable.Equals_refl t d.toICallable
  · intro d e
    exact ICallable.Equals_symm t d.toICallable e.toICallable

/-- C5 witness: the iff-characterization applied to two concrete delegates
at distinct addresses. -/
theorem C5_witness :
    Delegate.opEq (fun _ => Tier.native) (⟨0, []⟩ : Delegate Nat) ⟨1, []⟩ = true ↔
      ([] : List (ICallable Nat)).length = ([] : List (ICallable Nat)).length ∧
      equalsList (fun _ => Tier.native) ([] : List (ICallable Nat)) [] = true := by
  exact (C5_delegate_equality (fun _ => Tier.native)).1 ⟨0, []⟩ ⟨1, []⟩
    (by intro h; simp at h)

/-- C6 counterexample: in the second revision, `Add(T&, TRet (T::*)(Args...))`
has no null check, so adding a null member-function pointer (`funcId = 0`) to
an empty delegate appends an entry — the entry list is no longer empty,
contradicting the claim that the delegate is left unchanged. -/
theorem C6_counterexample :
    (Delegate.AddMember (⟨0, []⟩ : Delegate Nat) 1 0 7 0 5).entries.length = 1 ∧
    (Delegate.AddMember (⟨0, []⟩ : Delegate Nat) 1 0 7 0 5).entries.isEmpty = false :=
  ⟨rfl, rfl⟩

/-- C6 (amended): `Add` with a null free-function pointer is a silent no-op
in both revisions; `Add` with a null member-function pointer (plain or
const) is a no-op in the first revision, but in the second revision it
appends a member-function wrapper holding the null pointer. -/
theorem C6_null_add (d : Delegate B) (obj tag : Nat) (beh : B) (fresh : Nat) :
    (Delegate.AddFuncPtr d 0 beh fresh = d) ∧
    (Delegate.AddMemberRev1 d obj 0 tag beh fresh = d) ∧
    (Delegate.AddConstMemberRev1 d obj 0 tag beh fresh = d) ∧
    (Delegate.AddMember d obj 0 tag beh fresh =
      ⟨d.addr, d.entries ++ [.memberFuncWrapper fresh tag obj 0 beh]⟩) ∧
    (Delegate.AddConstMember d obj 0 tag beh fresh =
      ⟨d.addr, d.entries ++ [.constMemberFuncWrapper fresh tag obj 0 beh]⟩) :=
  ⟨rfl, rfl, rfl, rfl, rfl⟩

/-- C7 counterexample: a tier-3 (identity-equality) value wrapper's `Clone`
is a freshly allocated object, so `Equals` of the original against its clone
is false — copying does not preserve equality for tier-3 entries. -/
theorem C7_counterexample :
    ICallable.Equals (fun _ => Tier.identityOnly)
      (ICallable.callableWrapper 1 5 7 [] (0 : Nat))
      ((ICallable.callableWrapper 1 5 7 [] (0 : Nat)).Clone 2).1 = false := by
  decide

/-- C7 (amended): `Clone` produces a handle equal to the original for every
entry containing no tier-3 value wrapper (tier-1/tier-2 value wrappers,
member-function wrappers, and delegates all of whose entries are recursively
clone-safe); for a tier-3 value wrapper, `Equals` against a clone at any
fresh address is false (identity fallback). -/
theorem C7_clone_preserves_equality (t : Nat → Tier) (c : ICallable B) (n : Nat) :
    (cloneSafeC t c = true →
      ICallable.Equals t c (ICallable.Clone c n).1 = true) ∧
    (∀ a tag v bs (beh : B), t tag = Tier.identityOnly → n ≠ a →
      ICallable.Equals t (ICallable.callableWrapper a tag v bs beh)
        ((ICallable.callableWrapper a tag v bs beh).Clone n).1 = false) := by
  constructor
  · intro hs
    exact ICallable.Clone_equals t c n hs
  · intro a tag v bs beh ht hn
    simp [ICallable.Clone, ICallable.Equals, ht, addrOf, hn]

/-- C7 witness: a member-function wrapper's clone compares equal to the
original. -/
theorem C7_witness :
    ICallable.Equals (fun _ => Tier.native)
      (ICallable.memberFuncWrapper 3 2 8 9 (0 : Nat))
      ((ICallable.memberFuncWrapper 3 2 8 9 (0 : Nat)).Clone 4).1 = true := by
  exact (C7_clone_preserves_equality (fun _ => Tier.native)
    (ICallable.memberFuncWrapper 3 2 8 9 (0 : Nat)) 4).1 rfl

/-- C8: copy construction/assignment deep-clones every owned entry — the
copy's entry list is the in-order clone of the original's, preserving count
and invocation behaviour, and (given fresh clone addresses) the two
delegates' wrapper objects occupy disjoint storage, so mutating one cannot
touch the other's entries; move construction/assignment transfers the entry
sequence and leaves the source delegate empty. -/
theorem C8_copy_move_semantics (interp : B → A → S → S × R)
    (d : Delegate B) (newAddr n : Nat) (a : A) (s : S) :
    ((Delegate.copyCtor d newAddr n).1.entries = (cloneEntries d.entries n).1) ∧
    ((Delegate.copyCtor d newAddr n).1.entries.length = d.entries.length) ∧
    (Delegate.Invoke interp (Delegate.copyCtor d newAddr n).1 a s =
      Delegate.Invoke interp d a s) ∧
    ((∀ b ∈ addrsList d.entries, b < n) →
      ∀ b ∈ addrsList (Delegate.copyCtor d newAddr n).1.entries,
        b ∉ addrsList d.entries) ∧
    ((Delegate.moveCtor d newAddr).1.entries = d.entries ∧
     (Delegate.moveCtor d newAddr).2.entries = []) ∧
    (∀ dst : Delegate B, dst.addr ≠ d.addr →
      (Delegate.moveAssign dst d).1.entries = d.entries ∧
      (Delegate.moveAssign dst d).2.entries = []) ∧
    (∀ dst : Delegate B, dst.addr ≠ d.addr →
      (Delegate.copyAssign dst d n).1.entries = (cloneEntries d.entries n).1) := by
  refine ⟨rfl, cloneEntries_length d.entries n, ?_, ?_, ⟨rfl, rfl⟩, ?_, ?_⟩
  · exact cloneEntries_invoke interp d.entries n a s
  · intro hlt b hb hmem
    have h1 := cloneEntries_addrs_ge d.entries n b hb
    have h2 := hlt b hmem
    omega
  · intro dst h
    simp [Delegate.moveAssign, h]
  · intro dst h
    simp [Delegate.copyAssign, h]

/-- C8 witness: copying a concrete one-entry delegate preserves invocation,
moving out leaves the source empty, and copy assignment into a delegate at a
different address installs the entry clones. -/
theorem C8_witness :
    Delegate.Invoke (fun (k : Nat) (_ : Unit) (s : Nat) => (s + k, k))
      (Delegate.copyCtor (⟨0, [.callableWrapper 1 1 7 [] 5]⟩ : Delegate Nat) 9 10).1 () 0 =
      Delegate.Invoke (fun (k : Nat) (_ : Unit) (s : Nat) => (s + k, k))
        (⟨0, [.callableWrapper 1 1 7 [] 5]⟩ : Delegate Nat) () 0 ∧
    (Delegate.moveCtor (⟨0, [.callableWrapper 1 1 7 [] 5]⟩ : Delegate Nat) 9).2.entries = [] ∧
    (Delegate.copyAssign (⟨3, []⟩ : Delegate Nat)
      ⟨0, [.callableWrapper 1 1 7 [] 5]⟩ 10).1.entries =
      (cloneEntries [ICallable.callableWrapper 1 1 7 [] (5 : Nat)] 10).1 := by
  have h := C8_copy_move_semantics (fun (k : Nat) (_ : Unit) (s : Nat) => (s + k, k))
    (⟨0, [.callableWrapper 1 1 7 [] 5]⟩ : Delegate Nat) 9 10 () 0
  exact ⟨h.2.2.1, h.2.2.2.2.1.2, h.2.2.2.2.2.2 ⟨3, []⟩ (by decide)⟩

/-- C9: adding a tier-1 or tier-2 value wrapper and then removing the
identical value (same tag and held value for tier 1; same tag and storage
bytes for tier 2) restores the previous contents — in particular an empty
delegate stays empty; for a tier-3 (identity-equality) type, a value-based
`Remove` through a fresh throwaway wrapper never matches the added entry,
while removing the exact registered instance (same address) succeeds. -/
theorem C9_add_remove_roundtrip (t : Nat → Tier) (d : Delegate B) :
    (∀ a tag v bs bs2 (beh beh2 : B) (fresh : Nat), t tag = Tier.native →
      Delegate.RemoveValue t (d.Add (.callableWrapper a tag v bs beh)) tag v bs2 beh2 fresh
        = (true, d)) ∧
    (∀ a tag v v2 bs (beh beh2 : B) (fresh : Nat), t tag = Tier.flat →
      Delegate.RemoveValue t (d.Add (.callableWrapper a tag v bs beh)) tag v2 bs beh2 fresh
        = (true, d)) ∧
    (∀ a tag v bs (beh : B) (w : ICallable B), t tag = Tier.identityOnly →
      addrOf w ≠ a →
      (∀ c ∈ d.entries, ICallable.Equals t c w = false) →
      Delegate.RemoveImpl t (d.Add (.callableWrapper a tag v bs beh)) w
        = (false, d.Add (.callableWrapper a tag v bs beh))) ∧
    (∀ a tag v bs (beh : B), t tag = Tier.identityOnly →
      Delegate.RemoveImpl t (d.Add (.callableWrapper a tag v bs beh))
        (.callableWrapper a tag v bs beh) = (true, d)) := by
  refine ⟨?_, ?_, ?_, ?_⟩
  · intro a tag v bs bs2 beh beh2 fresh ht
    have hc : ICallable.Equals t (.callableWrapper a tag v bs beh)
        (.callableWrapper fresh tag v bs2 beh2) = true := by
      by_cases hf : (fresh : Nat) = a <;>
        simp [ICallable.Equals, ht, addrOf, ICallable.GetTypeInfo, hf]
    simp [Delegate.RemoveValue, Delegate.RemoveImpl, Delegate.Add,
      removeLastMatch_append_last t _ _ hc]
  · intro a tag v v2 bs beh beh2 fresh ht
    have hc : ICallable.Equals t (.callableWrapper a tag v bs beh)
        (.callableWrapper fresh tag v2 bs beh2) = true := by
      by_cases hf : (fresh : Nat) = a <;>
        simp [ICallable.Equals, ht, addrOf, ICallable.GetTypeInfo, hf]
    simp [Delegate.RemoveValue, Delegate.RemoveImpl, Delegate.Add,
      removeLastMatch_append_last t _ _ hc]
  · intro a tag v bs beh w ht hw hall
    have hnone : removeLastMatch t w (d.entries ++ [.callableWrapper a tag v bs beh]) = none := by
      refine (removeLastMatch_none_iff t w _).mpr ?_
      intro e he
      rcases List.mem_append.mp he with h1 | h1
      · exact hall e h1
      · simp only [List.mem_singleton] at h1
        subst h1
        simp [ICallable.Equals, ht, hw]
    simp [Delegate.RemoveImpl, Delegate.Add, hnone]
  · intro a tag v bs beh ht
    have hc : ICallable.Equals t (.callableWrapper a tag v bs beh)
        (.callableWrapper a tag v bs beh) = true := by
      simp [ICallable.Equals, ht, addrOf]
    simp [Delegate.RemoveImpl, Delegate.Add,
      removeLastMatch_append_last t _ _ hc]

/-- C9 witness: on the empty delegate, adding a tier-1 value and removing the
identical value leaves it empty again. -/
theorem C9_witness :
    Delegate.RemoveValue (fun _ => Tier.native)
      (Delegate.Add (⟨0, []⟩ : Delegate Nat) (.callableWrapper 3 1 7 [] 0))
      1 7 [] 0 9 = (true, ⟨0, []⟩) := by
  exact (C9_add_remove_roundtrip (fun _ => Tier.native) (⟨0, []⟩ : Delegate Nat)).1
    3 1 7 [] [] 0 0 9 rfl

/-- C10: `_Remove` (the engine of every `Remove` overload) returns a boolean
that is true iff an entry was actually erased: when it returns `false` the
delegate is exactly as before, and when it returns `true` exactly one entry
has been erased from the sequence; the null-function-pointer overload returns
`false` without touching the delegate, and a non-null pointer defers to
`_Remove` with the throwaway wrapper. -/
theorem C10_remove_bool (t : Nat → Tier) (d : Delegate B) (w : ICallable B)
    (p : Nat) (beh : B) (fresh : Nat) :
    ((Delegate.RemoveImpl t d w).1 = false → Delegate.RemoveImpl t d w = (false, d)) ∧
    ((Delegate.RemoveImpl t d w).1 = true →
      ∃ l1 x l3, d.entries = l1 ++ x :: l3 ∧
        (Delegate.RemoveImpl t d w).2.entries = l1 ++ l3) ∧
    (Delegate.RemoveFuncPtr t d 0 beh fresh = (false, d)) ∧
    (p ≠ 0 → Delegate.RemoveFuncPtr t d p beh fresh =
      Delegate.RemoveImpl t d (.callableWrapper fresh fnPtrTag p [p] beh)) := by
  refine ⟨?_, ?_, rfl, ?_⟩
  · intro h
    unfold Delegate.RemoveImpl at *
    cases hm : removeLastMatch t w d.entries with
    | none => rfl
    | some es => rw [hm] at h; simp at h
  · intro h
    unfold Delegate.RemoveImpl at *
    cases hm : removeLastMatch t w d.entries with
    | none => rw [hm] at h; simp at h
    | some es =>
      obtain ⟨l1, x, l3, he, he2, _, _⟩ := removeLastMatch_some_spec t w d.entries es hm
      exact ⟨l1, x, l3, he, by simp [← he2]⟩
  · intro hp
    simp [Delegate.RemoveFuncPtr, hp]

/-- C10 witness: on the empty delegate the null-pointer overload returns
`false` with the delegate untouched, and a failed `_Remove` leaves the
delegate exactly as it was. -/
theorem C10_witness :
    Delegate.RemoveFuncPtr (fun _ => Tier.native) (⟨0, []⟩ : Delegate Nat) 0 0 5
      = (false, ⟨0, []⟩) ∧
    Delegate.RemoveImpl (fun _ => Tier.native) (⟨0, []⟩ : Delegate Nat)
      (.callableWrapper 9 1 7 [] 0) = (false, ⟨0, []⟩) := by
  have h := C10_remove_bool (fun _ => Tier.native) (⟨0, []⟩ : Delegate Nat)
    (.callableWrapper 9 1 7 [] 0) 0 0 5
  exact ⟨h.2.2.1, h.1 rfl⟩
